import Mathlib

/-!
Verification of the blammo structured logger.

Shallow embedding of the Go sources (`blammo.go`, variants `part_000` /
`part_001`; the newer `part_001` is the authority where the two differ, the
older file is embedded under the namespace `old` where a claim is about it).

Modelling conventions:
* Go `[]byte` buffers and `string`s are modelled as `List Char` / `String`;
  all bytes the program manipulates positionally are ASCII, so rune-level
  and byte-level indexing agree at every position the code touches.
* Go `int` is modelled as `Int` (or `Nat` where the source value is a
  length or a non-negative offset), never with wrap-around, since no
  arithmetic in the embedded code overflows.
* A `nil` `*Event` receiver is `none : Option Event`.
* Operations that can panic (out-of-range slice bounds / indexing) return
  `Option`, `none` meaning the Go code panics.
* `io.Writer` identity is modelled as a `String` name; a write is a pair
  (writer, bytes written).  `nil io.Writer` is `none`.
* Values obtained from the environment (the clock, `runtime.Caller`,
  `runtime.GOROOT`) are passed in as explicit parameters.
* IEEE-754 formatting (`strconv.AppendFloat`) and `time.Time.MarshalText`
  are not modelled bit-for-bit: the rendered value text is passed in as a
  parameter where those appear.
-/

/-- Model of Go `copy(dst[a:b], src)` for `a ≤ b ≤ dst.length`: writes
`min (src.length) (b - a)` elements of `src` at positions `a, a+1, ...` of
`dst`.  Go's `copy` has memmove semantics, so taking `src` as a value
first is faithful even when source and destination overlap. -/
def goCopySub (dst : List Char) (a b : Nat) (src : List Char) : List Char :=
  let n := min src.length (b - a)
  dst.take a ++ src.take n ++ dst.drop (a + n)

/-- Model of blammo's `splice` (part_001 lines 219-229):

    ns := inspos + len(ins)
    txt = append(txt, ins...)
    copy(txt[ns:], txt[inspos:len(txt)-1])
    copy(txt[inspos:ns], ins)

`none` models the panic when a slice bound is out of range: `txt[inspos:len(txt)-1]`
requires `inspos ≤ len(txt)+len(ins)-1` (as signed ints), and `txt[ns:]`,
`txt[inspos:ns]` require `inspos ≤ len(txt)`. -/
def splice (txt ins : List Char) (inspos : Nat) : Option (List Char) :=
  let ns := inspos + ins.length
  let txt1 := txt ++ ins
  if inspos + 1 ≤ txt1.length ∧ inspos ≤ txt.length then
    let src := (txt1.drop inspos).take (txt1.length - 1 - inspos)
    let txt2 := goCopySub txt1 ns txt1.length src
    some (goCopySub txt2 inspos ns ins)
  else
    none

/-- Functional characterisation of `splice`: whenever the insertion point is
in range and we are not in the panicking corner (`ins = []` together with
`inspos = txt.length`), the result is `txt[0:inspos] ++ ins ++ txt[inspos:]`. -/
theorem splice_spec (txt ins : List Char) (inspos : Nat)
    (hpos : inspos ≤ txt.length)
    (hne : ins ≠ [] ∨ inspos < txt.length) :
    splice txt ins inspos = some (txt.take inspos ++ ins ++ txt.drop inspos) := by
  have hguard : inspos + 1 ≤ (txt ++ ins).length ∧ inspos ≤ txt.length := by
    constructor
    · rcases hne with h | h
      · have : 1 ≤ ins.length := by
          cases ins with
          | nil => exact absurd rfl h
          | cons a l => simp
        simp only [List.length_append]
        omega
      · simp only [List.length_append]
        omega
    · exact hpos
  rw [splice]
  simp only [hguard, and_self, if_true]
  rcases Nat.eq_zero_or_pos ins.length with hm | hm
  · -- `ins` is empty; the hypothesis forces `inspos < txt.length`
    have hins : ins = [] := List.length_eq_zero.mp hm
    subst hins
    have hlt : inspos < txt.length := by
      rcases hne with h | h
      · exact absurd rfl h
      · exact h
    simp only [List.append_nil, List.length_append, List.length_nil, Nat.add_zero,
      Nat.add_zero, goCopySub, List.length_take, List.length_drop]
    have h1 : min (min (txt.length - 1 - inspos) (txt.length - inspos))
        (txt.length - inspos) = txt.length - 1 - inspos := by omega
    rw [h1]
    have htake : ((txt.drop inspos).take (txt.length - 1 - inspos)).take
        (txt.length - 1 - inspos) = (txt.drop inspos).take (txt.length - 1 - inspos) := by
      rw [List.take_take]
      simp
    rw [htake]
    have h2 : txt.take inspos ++ (txt.drop inspos).take (txt.length - 1 - inspos) ++
        txt.drop (inspos + (txt.length - 1 - inspos)) = txt := by
      have hadd : inspos + (txt.length - 1 - inspos) = txt.length - 1 := by omega
      rw [hadd, ← List.take_add]
      have : inspos + (txt.length - 1 - inspos) = txt.length - 1 := hadd
      rw [this, List.take_append_drop]
    rw [h2]
    have h3 : min 0 (inspos - inspos) = 0 := by omega
    simp only [List.length_nil, h3, List.take_zero, List.nil_append, Nat.add_zero,
      List.append_nil, List.take_append_drop]
  · -- `ins` is non-empty
    have hm1 : 1 ≤ ins.length := hm
    simp only [goCopySub, List.length_take, List.length_drop, List.length_append]
    have hsrc : min (txt.length + ins.length - 1 - inspos)
        (txt.length + ins.length - inspos) = txt.length + ins.length - 1 - inspos := by
      omega
    have hn1 : min (min (txt.length + ins.length - 1 - inspos)
        (txt.length + ins.length - inspos))
        (txt.length + ins.length - (inspos + ins.length)) = txt.length - inspos := by
      omega
    rw [hn1]
    have hdropapp : (txt ++ ins).drop inspos = txt.drop inspos ++ ins :=
      List.drop_append_of_le_length hpos
    have htk : (((txt ++ ins).drop inspos).take (txt.length + ins.length - 1 - inspos)).take
        (txt.length - inspos) = txt.drop inspos := by
      rw [List.take_take, hdropapp]
      have hmin : min (txt.length - inspos) (txt.length + ins.length - 1 - inspos) =
          txt.length - inspos := by omega
      rw [hmin]
      rw [List.take_append_of_le_length (by simp)]
      simp
    rw [htk]
    have hdropall : (txt ++ ins).drop (inspos + ins.length + (txt.length - inspos)) = [] := by
      apply List.drop_eq_nil_of_le
      simp only [List.length_append]
      omega
    rw [hdropall, List.append_nil]
    -- second copy
    have hlen2 : ins.length ≤ ((txt ++ ins).take (inspos + ins.length)).length := by
      simp only [List.length_take, List.length_append]
      omega
    have hn2 : min ins.length (inspos + ins.length - inspos) = ins.length := by omega
    rw [hn2, List.take_length]
    have htake2 : ((txt ++ ins).take (inspos + ins.length) ++ txt.drop inspos).take inspos =
        txt.take inspos := by
      rw [List.take_append_of_le_length (by simp only [List.length_take, List.length_append]; omega)]
      rw [List.take_take]
      have : min inspos (inspos + ins.length) = inspos := by omega
      rw [this, List.take_append_of_le_length hpos]
    have hdrop2 : ((txt ++ ins).take (inspos + ins.length) ++ txt.drop inspos).drop
        (inspos + ins.length) = txt.drop inspos := by
      have hlen3 : ((txt ++ ins).take (inspos + ins.length)).length = inspos + ins.length := by
        simp only [List.length_take, List.length_append]
        omega
      rw [List.drop_append_of_le_length (by omega), List.drop_eq_nil_of_le (by omega)]
      simp
    rw [htake2, hdrop2]

/-- C1: for all byte sequences `B`, insertion sequences `I` and offsets
`P ≤ len(B)`, **except** in the corner `I = []` with `P = len(B)` (where the
internal slice bound `len(txt)-1` is out of range and the code panics),
`splice(B, I, P)` returns `B[0:P] ++ I ++ B[P:]`; with `P = len(B)` this is a
plain append.  In the program the insertion is always `message ++ " "`, hence
non-empty, so the excluded corner is unreachable from `Msg`. -/
theorem C1_splice_correct (B I : List Char) (P : Nat)
    (hP : P ≤ B.length) (hcorner : I ≠ [] ∨ P < B.length) :
    splice B I P = some (B.take P ++ I ++ B.drop P) :=
  splice_spec B I P hP hcorner

/-- C1 witness: the two concrete test vectors from `TestSplice`, via
`C1_splice_correct`. -/
theorem C1_splice_correct_witness :
    splice "abcdefg".data "zzz".data 3 = some "abczzzdefg".data ∧
    splice "abcdefg".data "1234567890".data 6 = some "abcdef1234567890g".data := by
  constructor
  · have h := C1_splice_correct "abcdefg".data "zzz".data 3 (by decide)
      (Or.inl (by decide))
    rw [h]
    decide
  · have h := C1_splice_correct "abcdefg".data "1234567890".data 6 (by decide)
      (Or.inl (by decide))
    rw [h]
    decide

/-- C1 counterexample: at `B = "abc"`, `I = ""`, `P = 3 = len(B)` — inside the
claim's stated domain `0 ≤ P ≤ len(B)` — the code evaluates `txt[3:2]`, which
panics, instead of returning `B` unchanged as the claim requires. -/
theorem C1_splice_claim_counterexample :
    splice "abc".data [] 3 = none ∧
    splice "abc".data [] 3 ≠ some ("abc".data.take 3 ++ [] ++ "abc".data.drop 3) := by
  constructor
  · decide
  · decide

/-- Model of the `Event` struct (part_001 lines 47-56).  The Go struct also
declares a field `tag []byte`, but no code ever assigns or reads it, so it is
omitted.  `out` is the destination writer's identity; `txt` is the byte
buffer.  The pooled-buffer mechanics (`sync.Pool`) affect only allocation,
not the bytes produced, and are not modelled. -/
structure Event where
  txt : List Char
  keyStart : List Char
  keyEnd : List Char
  msgpos : Nat
  callLevels : Int
  withSystem : Bool
  out : String
deriving Repr, DecidableEq

/-- Model of the `Logger` struct (part_001 lines 25-44).  Writers are
`Option String` (writer identity, `none` = nil).  The `Closer` callback does
not affect any event bytes and is omitted. -/
structure Logger where
  ErrorWriter : Option String
  InfoWriter : Option String
  DebugWriter : Option String
  Timestamp : String
  UTC : Bool
  MaxCallLevels : Int
  IncludeSystemFiles : Bool
  ErrorTag : List Char
  WarnTag : List Char
  InfoTag : List Char
  DebugTag : List Char
  KeyStart : List Char
  KeyEnd : List Char
deriving Repr, DecidableEq

/-- Model of `Logger.newEvent` (part_001 lines 174-195).  `ts` is the text
that `time.Now().(UTC().)AppendFormat` would produce for `l.Timestamp`; the
clock is external input.  Returns `none` when the writer is nil. -/
def Logger.newEvent (l : Logger) (ts : List Char) (w : Option String)
    (tag : List Char) : Option Event :=
  match w with
  | none => none
  | some wr =>
    let txt := (if l.Timestamp ≠ "" then ts else []) ++ tag
    some { txt := txt, keyStart := l.KeyStart, keyEnd := l.KeyEnd,
           msgpos := txt.length, callLevels := l.MaxCallLevels,
           withSystem := l.IncludeSystemFiles, out := wr }

/-- Model of `Logger.Debug` (part_001 lines 198-200). -/
def Logger.Debug (l : Logger) (ts : List Char) : Option Event :=
  l.newEvent ts l.DebugWriter l.DebugTag

/-- Model of `Logger.Info` (part_001 lines 203-205). -/
def Logger.Info (l : Logger) (ts : List Char) : Option Event :=
  l.newEvent ts l.InfoWriter l.InfoTag

/-- Model of `Logger.Warn` (part_001 lines 208-210); note it writes to
`ErrorWriter`. -/
def Logger.Warn (l : Logger) (ts : List Char) : Option Event :=
  l.newEvent ts l.ErrorWriter l.WarnTag

/-- Model of `Logger.Error` (part_001 lines 213-215). -/
def Logger.Error (l : Logger) (ts : List Char) : Option Event :=
  l.newEvent ts l.ErrorWriter l.ErrorTag

/-- Model of `Event.appendKey` (part_001 lines 231-236) on a real (non-nil)
event: appends key-start marker, key text, key-end marker and `=`. -/
def Event.appendKey (e : Event) (key : String) : Event :=
  { e with txt := e.txt ++ e.keyStart ++ key.data ++ e.keyEnd ++ ['='] }

/-- Appending a rendered value followed by the single trailing space, the
common tail of every field method. -/
def Event.appendVal (e : Event) (v : List Char) : Event :=
  { e with txt := e.txt ++ v ++ [' '] }

/-- The non-nil path of `Event.Str`: `appendKey` then the literal value
bytes and a trailing space. -/
def Event.strCore (e : Event) (key value : String) : Event :=
  (e.appendKey key).appendVal value.data

/-- Decimal rendering of a natural number, least significant digit last,
modelling the output of Go's `strconv.AppendUint(..., 10)`. -/
def natDec (n : Nat) : List Char :=
  (natDecAux n n).reverse
where
  natDecAux : Nat → Nat → List Char
    | 0, n => [Nat.digitChar (n % 10)]
    | fuel + 1, n =>
      if n < 10 then [Nat.digitChar n]
      else Nat.digitChar (n % 10) :: natDecAux fuel (n / 10)

/-- Decimal rendering of an integer, modelling `strconv.Itoa` and
`strconv.AppendInt(..., 10)`: a `-` sign for negatives, no leading zeros. -/
def intDec (i : Int) : List Char :=
  if i < 0 then '-' :: natDec i.natAbs else natDec i.toNat

/-- Lowercase hex rendering of a byte sequence, two characters per byte,
modelling `hex.EncodeToString`.  Elements are byte values (`< 256`, enforced
by Go's `byte` type, not by the model). -/
def hexChars (bs : List Nat) : List Char :=
  (bs.map (fun b => [Nat.digitChar (b / 16 % 16), Nat.digitChar (b % 16)])).flatten

/-- Model of `Event.Str` (part_001 lines 239-247); nil receiver returns nil. -/
def Event.Str (e : Option Event) (key value : String) : Option Event :=
  match e with
  | none => none
  | some ev => some (ev.strCore key value)

/-- Model of `Event.Bool` (part_001 lines 250-258). -/
def Event.Bool (e : Option Event) (key : String) (value : Bool) : Option Event :=
  match e with
  | none => none
  | some ev => if value then Event.Str (some ev) key "true"
               else Event.Str (some ev) key "false"

/-- Model of `Event.Bytes` (part_001 lines 261-266). -/
def Event.Bytes (e : Option Event) (key : String) (value : List Nat) : Option Event :=
  match e with
  | none => none
  | some ev => Event.Str (some ev) key (String.mk (hexChars value))

/-- Model of `Event.Err` (part_001 lines 269-277).  An `error` value is
modelled as `Option String`: `none` is a nil error, `some s` an error whose
`Error()` text is `s`. -/
def Event.Err (e : Option Event) (err : Option String) : Option Event :=
  match e with
  | none => none
  | some ev =>
    match err with
    | none => Event.Str (some ev) "@error" "nil"
    | some s => Event.Str (some ev) "@error" s

/-- Model of `Event.Float32` (part_001 lines 280-288).  The text produced by
`strconv.AppendFloat(e.txt, float64(f), 'G', -1, 32)` is not modelled at IEEE
level; `rendered` stands for its output bytes. -/
def Event.Float32 (e : Option Event) (key : String) (rendered : List Char) : Option Event :=
  match e with
  | none => none
  | some ev => some ((ev.appendKey key).appendVal rendered)

/-- Model of `Event.Float64` (part_001 lines 291-299).  Note the source calls
`strconv.AppendFloat(e.txt, float64(f), 'G', -1, 32)` — bitSize 32, i.e.
float32 precision, despite the float64 argument; `rendered` stands for that
output. -/
def Event.Float64 (e : Option Event) (key : String) (rendered : List Char) : Option Event :=
  match e with
  | none => none
  | some ev => some ((ev.appendKey key).appendVal rendered)

/-- Model of `Event.Int` (part_001 lines 302-307): `Str(key, strconv.Itoa value)`. -/
def Event.Int (e : Option Event) (key : String) (value : Int) : Option Event :=
  match e with
  | none => none
  | some ev => Event.Str (some ev) key (String.mk (intDec value))

/-- Model of `Event.Uint8` (part_001 lines 310-318); the value is a `Nat`,
the `uint8` range being enforced by Go's type, not by the model. -/
def Event.Uint8 (e : Option Event) (key : String) (value : Nat) : Option Event :=
  match e with
  | none => none
  | some ev => some ((ev.appendKey key).appendVal (natDec value))

/-- Model of `Event.Int8` (part_001 lines 321-329); `int64(value)` preserves
the value, so the rendering is `intDec`. -/
def Event.Int8 (e : Option Event) (key : String) (value : ℤ) : Option Event :=
  match e with
  | none => none
  | some ev => some ((ev.appendKey key).appendVal (intDec value))

/-- Model of `Event.Uint16` (part_001 lines 332-340). -/
def Event.Uint16 (e : Option Event) (key : String) (value : Nat) : Option Event :=
  match e with
  | none => none
  | some ev => some ((ev.appendKey key).appendVal (natDec value))

/-- Model of `Event.Int16` (part_001 lines 343-351). -/
def Event.Int16 (e : Option Event) (key : String) (value : ℤ) : Option Event :=
  match e with
  | none => none
  | some ev => some ((ev.appendKey key).appendVal (intDec value))

/-- Model of `Event.Uint32` (part_001 lines 354-362). -/
def Event.Uint32 (e : Option Event) (key : String) (value : Nat) : Option Event :=
  match e with
  | none => none
  | some ev => some ((ev.appendKey key).appendVal (natDec value))

/-- Model of `Event.Int32` (part_001 lines 365-373). -/
def Event.Int32 (e : Option Event) (key : String) (value : ℤ) : Option Event :=
  match e with
  | none => none
  | some ev => some ((ev.appendKey key).appendVal (intDec value))

/-- Model of `Event.Uint64` (part_001 lines 376-384). -/
def Event.Uint64 (e : Option Event) (key : String) (value : Nat) : Option Event :=
  match e with
  | none => none
  | some ev => some ((ev.appendKey key).appendVal (natDec value))

/-- Model of `Event.Int64` (part_001 lines 387-395). -/
def Event.Int64 (e : Option Event) (key : String) (value : ℤ) : Option Event :=
  match e with
  | none => none
  | some ev => some ((ev.appendKey key).appendVal (intDec value))

/-- Model of `Event.Time` (part_001 lines 398-410).  `rendered` stands for
the bytes produced by `value.MarshalText()` (or the diagnostic string on a
marshal failure); the `time.Time` machinery is not modelled. -/
def Event.Time (e : Option Event) (key : String) (rendered : List Char) : Option Event :=
  match e with
  | none => none
  | some ev => some ((ev.appendKey key).appendVal rendered)

/-- The loop of `abbreviate` (part_001 lines 416-421): `ls` tracks the index
of the most recent `/`, `ps` the one before it; on each `/` at index `i` the
code does `ps = ls; ls = i`.  `i` is the current index. -/
def abbrevLoop : List Char → Nat → Nat → Nat → Nat × Nat
  | [], _, ls, ps => (ls, ps)
  | c :: rest, i, ls, ps =>
    if c = '/' then abbrevLoop rest (i + 1) i ls else abbrevLoop rest (i + 1) ls ps

/-- Model of `abbreviate` (part_001 lines 414-426).  `none` models the panic
of `path[ps]` when `ps ≥ len(path)` — reachable exactly for the empty path,
where `ps = 0 ≥ 0 = len`.  Index arithmetic is at rune granularity, which
agrees with Go's byte indices at every position the code inspects because
`/` is a one-byte rune and all inspected positions are rune starts. -/
def abbreviate (path : String) : Option String :=
  let lp := abbrevLoop path.data 0 0 0
  let ps := lp.2
  if h : ps < path.data.length then
    let ps2 := if path.data.get ⟨ps, h⟩ = '/' then ps + 1 else ps
    some (String.mk (path.data.drop ps2))
  else
    none

/-- The frame filter inside `writeCallStack` (part_001 line 442):
`e.withSystem || !strings.HasPrefix(fn, goroot)`.  Prefix testing is done on
the character lists (equivalent to Go's byte-level test on valid UTF-8). -/
def passFrame (ws : Bool) (goroot : String) (fn : String) : Bool :=
  ws || !(goroot.data.isPrefixOf fn.data)

/-- The `for ok && n < maxlevels` loop of `writeCallStack` (part_001 lines
439-450).  `frames` lists what `runtime.Caller(blammoLevels)`,
`runtime.Caller(blammoLevels+1)`, ... would report (file, line), the list
ending where `ok` becomes false; `remaining` is the number of iterations
left (`maxlevels - n`); `lvl` is the code point of the index rune (Go
increments the rune, starting at '0'); `walo` records whether any frame was
emitted.  `none` models the panic of `abbreviate` on an empty file name. -/
def wcsLoop (goroot : String) : List (String × Int) → Event → Nat → Nat → Bool →
    Option (Event × Bool)
  | _, e, 0, _, walo => some (e, walo)
  | [], e, _ + 1, _, walo => some (e, walo)
  | (fn, line) :: rest, e, r + 1, lvl, walo =>
    if passFrame e.withSystem goroot fn then
      match abbreviate fn with
      | none => none
      | some ab =>
        let e1 := (e.strCore ("@file_" ++ String.singleton (Char.ofNat lvl)) ab)
        let e2 := (e1.strCore ("@line_" ++ String.singleton (Char.ofNat lvl))
          (String.mk (intDec line)))
        wcsLoop goroot rest e2 r (lvl + 1) true
    else
      wcsLoop goroot rest e r lvl walo

/-- Model of `Event.writeCallStack` (part_001 lines 428-455).  `goroot` is
`runtime.GOROOT()`; `frames` is the caller-stack oracle (levels from
`blammoLevels` upward).  When `maxlevels` is negative the loop body never
runs (`n < maxlevels` is false at `n = 0`), so the fallback field is
emitted, exactly as in Go. -/
def Event.writeCallStack (goroot : String) (frames : List (String × ℤ))
    (e : Event) (maxlevels : ℤ) : Option Event :=
  if maxlevels = 0 then some e
  else
    match wcsLoop goroot frames e maxlevels.toNat 48 false with
    | none => none
    | some (e', walo) =>
      if walo then some e' else some (e'.strCore "@file_0" "unavailable")

/-- Model of `Event.Line` (part_001 lines 459-464): `writeCallStack(1)` on a
non-nil receiver.  The outer `Option` is the panic layer (`some none` is a
nil receiver doing nothing). -/
def Event.Line (goroot : String) (frames : List (String × ℤ)) (e : Option Event) :
    Option (Option Event) :=
  match e with
  | none => some none
  | some ev => (Event.writeCallStack goroot frames ev 1).map some

/-- Model of `Event.Caller` (part_001 lines 469-474): `writeCallStack(2)`. -/
def Event.Caller (goroot : String) (frames : List (String × ℤ)) (e : Option Event) :
    Option (Option Event) :=
  match e with
  | none => some none
  | some ev => (Event.writeCallStack goroot frames ev 2).map some

/-- Model of `Event.CallStack` (part_001 lines 478-483):
`writeCallStack(e.callLevels)`. -/
def Event.CallStack (goroot : String) (frames : List (String × ℤ)) (e : Option Event) :
    Option (Option Event) :=
  match e with
  | none => some none
  | some ev => (Event.writeCallStack goroot frames ev ev.callLevels).map some

/-- Model of `Event.Msg` (part_001 lines 487-496).  Result: `none` models a
panic; `some ws` is the list of (writer, bytes) pairs written — `[]` for the
nil receiver, one entry otherwise.  Returning the event to the pool has no
observable effect on the bytes and is not modelled. -/
def Event.Msg (e : Option Event) (msg : String) : Option (List (String × List Char)) :=
  match e with
  | none => some []
  | some ev =>
    match splice ev.txt (msg ++ " ").data ev.msgpos with
    | none => none
    | some txt1 =>
      match txt1 with
      | [] => none
      | _ :: _ => some [(ev.out, txt1.dropLast ++ ['\n'])]

/-- Model of `Event.Msgf` (part_001 lines 500-506).  `fmt.Sprintf` is not
modelled; `msg` stands for the already-formatted text, which is handed to
`Msg` exactly as in the source. -/
def Event.Msgf (e : Option Event) (msg : String) : Option (List (String × List Char)) :=
  match e with
  | none => some []
  | some ev => Event.Msg (some ev) msg

namespace old

/-- Model of the older variant's `Event.writeCaller` (part_000 lines
408-418).  `caller n` is what `runtime.Caller(n)` reports; on failure Go
returns `ok = false` with `file = ""` and `line = 0`, and this variant
ignores `ok`, so the failure case feeds `""` to `abbreviate`.  The receiver
is non-nil (the guard lives in `Line`/`Caller`).  `none` models the
`abbreviate` panic.  Field order in the source: the `@line`/`@c_line` field
is appended first, then `abbreviate(fn)` is evaluated for the file field. -/
def writeCaller (caller : Int → Option (String × Int)) (e : Event) (n : Int) :
    Option Event :=
  let fr := (caller n).getD ("", 0)
  if n = 3 then
    let e1 := e.strCore "@line" (String.mk (intDec fr.2))
    match abbreviate fr.1 with
    | none => none
    | some ab => some (e1.strCore "@file" ab)
  else
    let e1 := e.strCore "@c_line" (String.mk (intDec fr.2))
    match abbreviate fr.1 with
    | none => none
    | some ab => some (e1.strCore "@c_file" ab)

end old

/-- The byte block one field append contributes:
key-start marker, literal key, key-end marker, `=`, rendered value, space. -/
def fieldBlock (ks ke : List Char) (key : String) (v : List Char) : List Char :=
  ks ++ key.data ++ ke ++ ['='] ++ v ++ [' ']

theorem strCore_eq (e : Event) (key value : String) :
    e.strCore key value =
      { e with txt := e.txt ++ fieldBlock e.keyStart e.keyEnd key value.data } := by
  simp [Event.strCore, Event.appendKey, Event.appendVal, fieldBlock]

/-- One field-encoder invocation, abstracting over the value type.  The
`float32`, `float64` and `time` constructors carry the rendered value text,
matching the corresponding `Event` methods. -/
inductive FieldCall where
  | str (key value : String)
  | bool (key : String) (value : Bool)
  | bytes (key : String) (value : List Nat)
  | err (e : Option String)
  | float32 (key : String) (rendered : List Char)
  | float64 (key : String) (rendered : List Char)
  | int (key : String) (value : Int)
  | int8 (key : String) (value : Int)
  | int16 (key : String) (value : Int)
  | int32 (key : String) (value : Int)
  | int64 (key : String) (value : Int)
  | uint8 (key : String) (value : Nat)
  | uint16 (key : String) (value : Nat)
  | uint32 (key : String) (value : Nat)
  | uint64 (key : String) (value : Nat)
  | time (key : String) (rendered : List Char)
deriving Repr, DecidableEq

/-- Dispatch of one encoder call to the corresponding `Event` method. -/
def applyFieldCall (e : Option Event) : FieldCall → Option Event
  | .str k v => Event.Str e k v
  | .bool k v => Event.Bool e k v
  | .bytes k v => Event.Bytes e k v
  | .err er => Event.Err e er
  | .float32 k r => Event.Float32 e k r
  | .float64 k r => Event.Float64 e k r
  | .int k v => Event.Int e k v
  | .int8 k v => Event.Int8 e k v
  | .int16 k v => Event.Int16 e k v
  | .int32 k v => Event.Int32 e k v
  | .int64 k v => Event.Int64 e k v
  | .uint8 k v => Event.Uint8 e k v
  | .uint16 k v => Event.Uint16 e k v
  | .uint32 k v => Event.Uint32 e k v
  | .uint64 k v => Event.Uint64 e k v
  | .time k r => Event.Time e k r

/-- The bytes one encoder call appends, given the event's key markers. -/
def renderField (ks ke : List Char) : FieldCall → List Char
  | .str k v => fieldBlock ks ke k v.data
  | .bool k v => fieldBlock ks ke k (if v then "true".data else "false".data)
  | .bytes k v => fieldBlock ks ke k (hexChars v)
  | .err none => fieldBlock ks ke "@error" "nil".data
  | .err (some s) => fieldBlock ks ke "@error" s.data
  | .float32 k r => fieldBlock ks ke k r
  | .float64 k r => fieldBlock ks ke k r
  | .int k v => fieldBlock ks ke k (intDec v)
  | .int8 k v => fieldBlock ks ke k (intDec v)
  | .int16 k v => fieldBlock ks ke k (intDec v)
  | .int32 k v => fieldBlock ks ke k (intDec v)
  | .int64 k v => fieldBlock ks ke k (intDec v)
  | .uint8 k v => fieldBlock ks ke k (natDec v)
  | .uint16 k v => fieldBlock ks ke k (natDec v)
  | .uint32 k v => fieldBlock ks ke k (natDec v)
  | .uint64 k v => fieldBlock ks ke k (natDec v)
  | .time k r => fieldBlock ks ke k r

theorem applyFieldCall_none (f : FieldCall) : applyFieldCall none f = none := by
  cases f <;> rfl

theorem applyFieldCall_some (e : Event) (f : FieldCall) :
    applyFieldCall (some e) f =
      some { e with txt := e.txt ++ renderField e.keyStart e.keyEnd f } := by
  cases f with
  | str k v =>
    simp [applyFieldCall, Event.Str, strCore_eq, renderField]
  | bool k v =>
    cases v <;>
      simp [applyFieldCall, Event.Bool, Event.Str, strCore_eq, renderField]
  | bytes k v =>
    simp [applyFieldCall, Event.Bytes, Event.Str, strCore_eq, renderField]
  | err er =>
    cases er <;>
      simp [applyFieldCall, Event.Err, Event.Str, strCore_eq, renderField]
  | float32 k r =>
    simp [applyFieldCall, Event.Float32, Event.appendKey, Event.appendVal,
      renderField, fieldBlock]
  | float64 k r =>
    simp [applyFieldCall, Event.Float64, Event.appendKey, Event.appendVal,
      renderField, fieldBlock]
  | int k v =>
    simp [applyFieldCall, Event.Int, Event.Str, strCore_eq, renderField]
  | int8 k v =>
    simp [applyFieldCall, Event.Int8, Event.appendKey, Event.appendVal,
      renderField, fieldBlock]
  | int16 k v =>
    simp [applyFieldCall, Event.Int16, Event.appendKey, Event.appendVal,
      renderField, fieldBlock]
  | int32 k v =>
    simp [applyFieldCall, Event.Int32, Event.appendKey, Event.appendVal,
      renderField, fieldBlock]
  | int64 k v =>
    simp [applyFieldCall, Event.Int64, Event.appendKey, Event.appendVal,
      renderField, fieldBlock]
  | uint8 k v =>
    simp [applyFieldCall, Event.Uint8, Event.appendKey, Event.appendVal,
      renderField, fieldBlock]
  | uint16 k v =>
    simp [applyFieldCall, Event.Uint16, Event.appendKey, Event.appendVal,
      renderField, fieldBlock]
  | uint32 k v =>
    simp [applyFieldCall, Event.Uint32, Event.appendKey, Event.appendVal,
      renderField, fieldBlock]
  | uint64 k v =>
    simp [applyFieldCall, Event.Uint64, Event.appendKey, Event.appendVal,
      renderField, fieldBlock]
  | time k r =>
    simp [applyFieldCall, Event.Time, Event.appendKey, Event.appendVal,
      renderField, fieldBlock]

/-- A chain of encoder calls, applied left to right. -/
def applyFields (e : Option Event) : List FieldCall → Option Event
  | [] => e
  | f :: rest => applyFields (applyFieldCall e f) rest

theorem applyFields_some (e : Event) (fs : List FieldCall) :
    applyFields (some e) fs =
      some { e with
             txt := e.txt ++ (fs.map (renderField e.keyStart e.keyEnd)).flatten } := by
  induction fs generalizing e with
  | nil => simp [applyFields]
  | cons f rest ih =>
    rw [applyFields, applyFieldCall_some, ih]
    simp [List.append_assoc]

/-- C8: on a non-nil event, appending a field produces exactly
key-highlight-start ++ key ++ key-highlight-end ++ `=` ++ value ++ one
trailing space; the key and value bytes are embedded literally (`key.data`
and `value.data` below), so spaces, `=` and every other byte pass through
unescaped and unaltered. -/
theorem C8_appendField_layout (e : Event) (key value : String) :
    Event.Str (some e) key value =
      some { e with
             txt := e.txt ++
               (e.keyStart ++ key.data ++ e.keyEnd ++ ['='] ++ value.data ++ [' ']) } := by
  rw [Event.Str, strCore_eq, fieldBlock]

theorem Msg_eq (ev : Event) (msg : String) (t1 : List Char)
    (hs : splice ev.txt (msg ++ " ").data ev.msgpos = some t1) (hne : t1 ≠ []) :
    Event.Msg (some ev) msg = some [(ev.out, t1.dropLast ++ ['\n'])] := by
  rw [Event.Msg, hs]
  cases t1 with
  | nil => exact absurd rfl hne
  | cons a l => rfl

/-- C2: on a non-nil event whose buffer is `prefix + k fields` with the
message-insertion offset at the end of the prefix, `Msg` writes exactly one
record to the event's destination: the prefix, then the message and a space,
then the fields in exactly the order their encoder calls were made, with the
final byte of the whole buffer (the last field's trailing space, or the
message's own trailing space when `k = 0`) replaced by a newline. -/
theorem C2_msg_layout (e : Event) (calls : List FieldCall) (msg : String)
    (hpos : e.msgpos = e.txt.length) :
    Event.Msg (applyFields (some e) calls) msg =
      some [(e.out,
        (e.txt ++ (msg ++ " ").data ++
          (calls.map (renderField e.keyStart e.keyEnd)).flatten).dropLast ++ ['\n'])] := by
  rw [applyFields_some]
  set F := (calls.map (renderField e.keyStart e.keyEnd)).flatten with hF
  have hsp : splice (e.txt ++ F) (msg ++ " ").data e.msgpos =
      some (e.txt ++ (msg ++ " ").data ++ F) := by
    rw [hpos]
    have h := splice_spec (e.txt ++ F) (msg ++ " ").data e.txt.length
      (by simp) (Or.inl (by simp [String.data_append]))
    rw [h, List.take_append_of_le_length (le_refl _), List.take_length,
      List.drop_append_of_le_length (le_refl _), List.drop_length]
    simp
  have happ := Msg_eq { e with txt := e.txt ++ F } msg
    (e.txt ++ (msg ++ " ").data ++ F) hsp
    (by simp [String.data_append])
  rw [happ]

/-- A concrete event used by witnesses: the state right after
`NewCloudLogger()`-style creation of an info event (`[INFO ] ` tag, no
timestamp, empty key markers). -/
def sampleEvent : Event :=
  { txt := "[INFO ] ".data, keyStart := [], keyEnd := [], msgpos := 8,
    callLevels := 3, withSystem := false, out := "stdout" }

/-- C2 witness: one string field then `Msg "hi"` on the sample event, via
`C2_msg_layout`. -/
theorem C2_msg_layout_witness :
    sampleEvent.msgpos = sampleEvent.txt.length ∧
    Event.Msg (applyFields (some sampleEvent) [FieldCall.str "k" "v"]) "hi" =
      some [(sampleEvent.out,
        (sampleEvent.txt ++ ("hi" ++ " ").data ++
          ([FieldCall.str "k" "v"].map
            (renderField sampleEvent.keyStart sampleEvent.keyEnd)).flatten).dropLast ++
          ['\n'])] :=
  ⟨by decide, C2_msg_layout sampleEvent [FieldCall.str "k" "v"] "hi" (by decide)⟩

/-- One builder-method invocation: a field encoder call or one of the three
call-stack methods. -/
inductive BuilderCall where
  | field (f : FieldCall)
  | line
  | caller
  | callStack
deriving Repr, DecidableEq

/-- Dispatch of one builder call.  The outer `Option` is the panic layer
(only the call-stack methods can panic, through `abbreviate`). -/
def applyBuilder (goroot : String) (frames : List (String × ℤ)) (e : Option Event) :
    BuilderCall → Option (Option Event)
  | .field f => some (applyFieldCall e f)
  | .line => Event.Line goroot frames e
  | .caller => Event.Caller goroot frames e
  | .callStack => Event.CallStack goroot frames e

/-- A chain of builder calls, applied left to right, propagating panics. -/
def applyBuilders (goroot : String) (frames : List (String × ℤ)) (e : Option Event) :
    List BuilderCall → Option (Option Event)
  | [] => some e
  | c :: rest =>
    match applyBuilder goroot frames e c with
    | none => none
    | some e' => applyBuilders goroot frames e' rest

theorem applyBuilder_none (goroot : String) (frames : List (String × ℤ))
    (c : BuilderCall) : applyBuilder goroot frames none c = some none := by
  cases c with
  | field f => rw [applyBuilder, applyFieldCall_none]
  | line => rfl
  | caller => rfl
  | callStack => rfl

theorem applyBuilders_none (goroot : String) (frames : List (String × ℤ))
    (calls : List BuilderCall) : applyBuilders goroot frames none calls = some none := by
  induction calls with
  | nil => rfl
  | cons c rest ih => rw [applyBuilders, applyBuilder_none]; exact ih

/-- C3: every finite sequence of builder-method invocations (field setters of
every type, `Line`, `Caller`, `CallStack`) on the absent (nil) event returns
the absent event without panicking, and the finalizers `Msg` and `Msgf` on
the absent event write nothing and do not panic. -/
theorem C3_nil_safety :
    (∀ (goroot : String) (frames : List (String × ℤ)) (calls : List BuilderCall),
       applyBuilders goroot frames none calls = some none) ∧
    (∀ msg, Event.Msg none msg = some []) ∧
    (∀ msg, Event.Msgf none msg = some []) :=
  ⟨applyBuilders_none, fun _ => rfl, fun _ => rfl⟩

/-- C4: when a severity's destination writer is nil, the corresponding
`Logger` method returns the absent event, and any chain of builder calls
followed by `Msg` performs no write at all (and cannot panic).  `Debug` uses
`DebugWriter`, `Info` uses `InfoWriter`, and both `Warn` and `Error` use
`ErrorWriter`. -/
theorem C4_disabled_severity (l : Logger) (ts : List Char) (goroot : String)
    (frames : List (String × ℤ)) (calls : List BuilderCall) (msg : String) :
    (l.DebugWriter = none →
       Logger.Debug l ts = none ∧
       (applyBuilders goroot frames (Logger.Debug l ts) calls).bind
         (fun e => Event.Msg e msg) = some []) ∧
    (l.InfoWriter = none →
       Logger.Info l ts = none ∧
       (applyBuilders goroot frames (Logger.Info l ts) calls).bind
         (fun e => Event.Msg e msg) = some []) ∧
    (l.ErrorWriter = none →
       Logger.Warn l ts = none ∧ Logger.Error l ts = none ∧
       (applyBuilders goroot frames (Logger.Warn l ts) calls).bind
         (fun e => Event.Msg e msg) = some [] ∧
       (applyBuilders goroot frames (Logger.Error l ts) calls).bind
         (fun e => Event.Msg e msg) = some []) := by
  refine ⟨fun h => ?_, fun h => ?_, fun h => ?_⟩
  · have hd : Logger.Debug l ts = none := by
      rw [Logger.Debug, h, Logger.newEvent]
    refine ⟨hd, ?_⟩
    rw [hd, applyBuilders_none]
    rfl
  · have hd : Logger.Info l ts = none := by
      rw [Logger.Info, h, Logger.newEvent]
    refine ⟨hd, ?_⟩
    rw [hd, applyBuilders_none]
    rfl
  · have hw : Logger.Warn l ts = none := by
      rw [Logger.Warn, h, Logger.newEvent]
    have he : Logger.Error l ts = none := by
      rw [Logger.Error, h, Logger.newEvent]
    refine ⟨hw, he, ?_, ?_⟩
    · rw [hw, applyBuilders_none]; rfl
    · rw [he, applyBuilders_none]; rfl

/-- C4 witness: a logger with all writers nil, one chained field call and a
chained `CallStack` call, via `C4_disabled_severity`. -/
theorem C4_disabled_severity_witness :
    ({ ErrorWriter := none, InfoWriter := none, DebugWriter := none,
       Timestamp := "", UTC := false, MaxCallLevels := 3,
       IncludeSystemFiles := false, ErrorTag := "[ERROR] ".data,
       WarnTag := "[WARN ] ".data, InfoTag := "[INFO ] ".data,
       DebugTag := "[DEBUG] ".data, KeyStart := [], KeyEnd := [] } : Logger).DebugWriter
        = none ∧
    Logger.Debug
      { ErrorWriter := none, InfoWriter := none, DebugWriter := none,
        Timestamp := "", UTC := false, MaxCallLevels := 3,
        IncludeSystemFiles := false, ErrorTag := "[ERROR] ".data,
        WarnTag := "[WARN ] ".data, InfoTag := "[INFO ] ".data,
        DebugTag := "[DEBUG] ".data, KeyStart := [], KeyEnd := [] } [] = none ∧
    (applyBuilders "GOROOT" [("GOROOT/src/runtime/proc.go", 250)]
      (Logger.Debug
        { ErrorWriter := none, InfoWriter := none, DebugWriter := none,
          Timestamp := "", UTC := false, MaxCallLevels := 3,
          IncludeSystemFiles := false, ErrorTag := "[ERROR] ".data,
          WarnTag := "[WARN ] ".data, InfoTag := "[INFO ] ".data,
          DebugTag := "[DEBUG] ".data, KeyStart := [], KeyEnd := [] } [])
      [BuilderCall.field (FieldCall.str "k" "v"), BuilderCall.callStack]).bind
      (fun e => Event.Msg e "boom") = some [] := by
  have h := C4_disabled_severity
    { ErrorWriter := none, InfoWriter := none, DebugWriter := none,
      Timestamp := "", UTC := false, MaxCallLevels := 3,
      IncludeSystemFiles := false, ErrorTag := "[ERROR] ".data,
      WarnTag := "[WARN ] ".data, InfoTag := "[INFO ] ".data,
      DebugTag := "[DEBUG] ".data, KeyStart := [], KeyEnd := [] }
    [] "GOROOT" [("GOROOT/src/runtime/proc.go", 250)]
    [BuilderCall.field (FieldCall.str "k" "v"), BuilderCall.callStack] "boom"
  exact ⟨rfl, (h.1 rfl).1, (h.1 rfl).2⟩

/-- Modelled from the spec's words for the path-abbreviation claim: the
`/`-separated segments of a path (an empty path has one empty segment, a
separator at either end contributes an empty segment, exactly as for Go's
`strings.Split(path, "/")`).  This is the claim-side definition that
`abbreviate` (embedded from the source) is compared against. -/
def specSegments : List Char → List (List Char)
  | [] => [[]]
  | c :: rest =>
    if c = '/' then [] :: specSegments rest
    else
      match specSegments rest with
      | s :: ss => (c :: s) :: ss
      | [] => [[c]]

/-- Modelled from the spec's words: the last two segments joined by `/`
(meaningful only for a segment list of length at least two). -/
def joinLastTwo (segs : List (List Char)) : List Char :=
  match segs.reverse with
  | b :: a :: _ => a ++ '/' :: b
  | _ => []

theorem specSegments_ne_nil (l : List Char) : specSegments l ≠ [] := by
  cases l with
  | nil => simp [specSegments]
  | cons c rest =>
    rw [specSegments]
    by_cases hc : c = '/'
    · simp [hc]
    · simp only [hc, if_false]
      cases specSegments rest <;> simp

theorem specSegments_no_slash (l : List Char) (h : '/' ∉ l) :
    specSegments l = [l] := by
  induction l with
  | nil => rfl
  | cons c rest ih =>
    have hc : c ≠ '/' := fun hh => h (hh ▸ List.mem_cons_self c rest)
    have ht : '/' ∉ rest := fun hh => h (List.mem_cons_of_mem c hh)
    rw [specSegments, if_neg hc, ih ht]

theorem specSegments_cons (c : Char) (rest : List Char) :
    specSegments (c :: rest) =
      if c = '/' then [] :: specSegments rest
      else
        match specSegments rest with
        | s :: ss => (c :: s) :: ss
        | [] => [[c]] := rfl

theorem specSegments_append (l1 l2 : List Char) (h : '/' ∉ l2) :
    specSegments (l1 ++ '/' :: l2) = specSegments l1 ++ [l2] := by
  induction l1 with
  | nil =>
    rw [List.nil_append, specSegments_cons, if_pos rfl, specSegments_no_slash l2 h]
    rfl
  | cons c t ih =>
    by_cases hc : c = '/'
    · subst hc
      rw [List.cons_append, specSegments_cons, if_pos rfl, ih,
        specSegments_cons, if_pos rfl, List.cons_append]
    · obtain ⟨s, ss, hss⟩ : ∃ s ss, specSegments t = s :: ss := by
        cases hst : specSegments t with
        | nil => exact absurd hst (specSegments_ne_nil t)
        | cons s ss => exact ⟨s, ss, rfl⟩
      rw [List.cons_append, specSegments_cons, if_neg hc, ih, hss,
        specSegments_cons, if_neg hc, hss, List.cons_append]
      rfl

theorem joinLastTwo_append (X : List (List Char)) (a b : List Char) :
    joinLastTwo (X ++ [a, b]) = a ++ '/' :: b := by
  rw [joinLastTwo, List.reverse_append]
  rfl

theorem exists_last_slash (l : List Char) (h : '/' ∈ l) :
    ∃ A B, l = A ++ '/' :: B ∧ '/' ∉ B := by
  induction l with
  | nil => cases h
  | cons c t ih =>
    by_cases ht : '/' ∈ t
    · obtain ⟨A, B, hAB, hB⟩ := ih ht
      exact ⟨c :: A, B, by rw [hAB]; rfl, hB⟩
    · have hc : c = '/' := by
        rcases List.mem_cons.mp h with h1 | h1
        · exact h1.symm
        · exact absurd h1 ht
      exact ⟨[], t, by rw [hc, List.nil_append], ht⟩

theorem abbrevLoop_append (A B : List Char) (i ls ps : Nat) :
    abbrevLoop (A ++ B) i ls ps =
      abbrevLoop B (i + A.length) (abbrevLoop A i ls ps).1 (abbrevLoop A i ls ps).2 := by
  induction A generalizing i ls ps with
  | nil => simp [abbrevLoop]
  | cons c t ih =>
    rw [List.cons_append]
    by_cases hc : c = '/'
    · simp only [abbrevLoop, List.append_eq, if_pos hc, List.length_cons, ih]
      have harith : i + (t.length + 1) = i + 1 + t.length := by omega
      rw [harith]
    · simp only [abbrevLoop, List.append_eq, if_neg hc, List.length_cons, ih]
      have harith : i + (t.length + 1) = i + 1 + t.length := by omega
      rw [harith]

theorem abbrevLoop_no_slash : ∀ (A : List Char) (i ls ps : Nat), '/' ∉ A →
    abbrevLoop A i ls ps = (ls, ps)
  | [], _, _, _, _ => rfl
  | c :: t, i, ls, ps, h => by
    have hc : c ≠ '/' := fun hh => h (hh ▸ List.mem_cons_self c t)
    have ht : '/' ∉ t := fun hh => h (List.mem_cons_of_mem c hh)
    rw [abbrevLoop, if_neg hc]
    exact abbrevLoop_no_slash t (i + 1) ls ps ht

theorem abbreviate_eval (l : List Char) (ls ps : Nat)
    (hloop : abbrevLoop l 0 0 0 = (ls, ps)) (h : ps < l.length) :
    abbreviate (String.mk l) =
      some (String.mk (l.drop (if l.get ⟨ps, h⟩ = '/' then ps + 1 else ps))) := by
  have hd : (String.mk l).data = l := rfl
  rw [abbreviate, hd, hloop]
  rw [dif_pos h]

theorem get_append_mid (A X : List Char) (hh : A.length < (A ++ X).length)
    (hx : 0 < X.length) : (A ++ X).get ⟨A.length, hh⟩ = X.get ⟨0, hx⟩ := by
  rw [List.get_eq_getElem, List.get_eq_getElem]
  rw [List.getElem_append_right (Nat.le_refl A.length)]
  simp

theorem abbreviate_no_slash_case (l : List Char) (hne : l ≠ []) (hns : '/' ∉ l) :
    abbreviate (String.mk l) = some (String.mk l) := by
  have hlen : 0 < l.length := List.length_pos.mpr hne
  rw [abbreviate_eval l 0 0 (abbrevLoop_no_slash l 0 0 0 hns) hlen]
  have hget : l.get ⟨0, hlen⟩ ≠ '/' := fun hh => hns (hh ▸ List.get_mem l 0 hlen)
  rw [if_neg hget, List.drop_zero]

theorem abbreviate_lead_case (B : List Char) (h : '/' ∉ B) :
    abbreviate (String.mk ('/' :: B)) = some (String.mk B) := by
  have hloop : abbrevLoop ('/' :: B) 0 0 0 = (0, 0) := by
    rw [abbrevLoop, if_pos rfl]
    exact abbrevLoop_no_slash B 1 0 0 h
  have hlen : 0 < ('/' :: B).length := by simp
  rw [abbreviate_eval ('/' :: B) 0 0 hloop hlen]
  have hget : ('/' :: B).get ⟨0, hlen⟩ = '/' := rfl
  rw [if_pos hget]
  rfl

theorem abbreviate_mid_case (A B : List Char) (hAne : A ≠ []) (hA : '/' ∉ A)
    (hB : '/' ∉ B) :
    abbreviate (String.mk (A ++ '/' :: B)) = some (String.mk (A ++ '/' :: B)) := by
  have hloop : abbrevLoop (A ++ '/' :: B) 0 0 0 = (A.length, 0) := by
    rw [abbrevLoop_append, abbrevLoop_no_slash A 0 0 0 hA]
    rw [abbrevLoop, if_pos rfl]
    rw [abbrevLoop_no_slash B _ _ _ hB]
    simp
  have h0A : 0 < A.length := List.length_pos.mpr hAne
  have hlen : (0 : Nat) < (A ++ '/' :: B).length := by simp
  rw [abbreviate_eval _ A.length 0 hloop hlen]
  have hget : (A ++ '/' :: B).get ⟨0, hlen⟩ ≠ '/' := by
    rw [List.get_append 0 h0A]
    exact fun hh => hA (hh ▸ List.get_mem A 0 h0A)
  rw [if_neg hget, List.drop_zero]

theorem abbreviate_two_case (A B1 B2 : List Char) (h1 : '/' ∉ B1) (h2 : '/' ∉ B2) :
    abbreviate (String.mk (A ++ '/' :: (B1 ++ '/' :: B2))) =
      some (String.mk (B1 ++ '/' :: B2)) := by
  have hloop : abbrevLoop (A ++ '/' :: (B1 ++ '/' :: B2)) 0 0 0 =
      (A.length + 1 + B1.length, A.length) := by
    rw [abbrevLoop_append]
    rw [abbrevLoop, if_pos rfl]
    rw [abbrevLoop_append]
    rw [abbrevLoop_no_slash B1 _ _ _ h1]
    rw [abbrevLoop, if_pos rfl]
    rw [abbrevLoop_no_slash B2 _ _ _ h2]
    simp
  have hps : A.length < (A ++ '/' :: (B1 ++ '/' :: B2)).length := by
    simp
  rw [abbreviate_eval _ _ _ hloop hps]
  have hx : 0 < ('/' :: (B1 ++ '/' :: B2)).length := by simp
  have hget : (A ++ '/' :: (B1 ++ '/' :: B2)).get ⟨A.length, hps⟩ = '/' := by
    rw [get_append_mid A _ hps hx]
    rfl
  rw [if_pos hget]
  have hdrop : (A ++ '/' :: (B1 ++ '/' :: B2)).drop (A.length + 1) =
      B1 ++ '/' :: B2 := by
    rw [List.drop_append 1]
    rfl
  rw [hdrop]

/-- C6 counterexample: the path `/a` has two `/`-separated segments (the
empty segment and `a`), so the claim requires the result `/a` (the last two
segments joined by `/`), but `abbreviate` drops the leading separator and
returns `a`. -/
theorem C6_abbreviate_claim_counterexample :
    2 ≤ (specSegments "/a".data).length ∧
    abbreviate "/a" ≠ some (String.mk (joinLastTwo (specSegments "/a".data))) := by
  constructor
  · decide
  · decide

/-- C6 amended: a path with no separator is returned unchanged provided it
is non-empty (the empty path panics, see C10); a path with at least two
segments is reduced to its last two segments joined by `/` — except when the
path's only `/` is its first character, where the leading separator is
dropped and only the final segment is returned.  The four conjuncts cover
every non-empty path: no separator; a single interior separator; at least
two separators; a single leading separator. -/
theorem C6_abbreviate_amended :
    (∀ l : List Char, l ≠ [] → '/' ∉ l →
       abbreviate (String.mk l) = some (String.mk l)) ∧
    (∀ A B : List Char, A ≠ [] → '/' ∉ A → '/' ∉ B →
       abbreviate (String.mk (A ++ '/' :: B)) =
         some (String.mk (joinLastTwo (specSegments (A ++ '/' :: B))))) ∧
    (∀ A B1 B2 : List Char, '/' ∉ B1 → '/' ∉ B2 →
       abbreviate (String.mk (A ++ '/' :: (B1 ++ '/' :: B2))) =
         some (String.mk (joinLastTwo (specSegments (A ++ '/' :: (B1 ++ '/' :: B2)))))) ∧
    (∀ B : List Char, '/' ∉ B →
       abbreviate (String.mk ('/' :: B)) = some (String.mk B)) := by
  refine ⟨abbreviate_no_slash_case, ?_, ?_, abbreviate_lead_case⟩
  · intro A B hAne hA hB
    have hsegs : specSegments (A ++ '/' :: B) = [A, B] := by
      rw [specSegments_append A B hB, specSegments_no_slash A hA]
      rfl
    have hjoin : joinLastTwo (specSegments (A ++ '/' :: B)) = A ++ '/' :: B := by
      rw [hsegs]
      have := joinLastTwo_append [] A B
      rwa [List.nil_append] at this
    rw [hjoin]
    exact abbreviate_mid_case A B hAne hA hB
  · intro A B1 B2 h1 h2
    have hassoc : A ++ '/' :: (B1 ++ '/' :: B2) = (A ++ '/' :: B1) ++ '/' :: B2 := by
      simp
    have hsegs : specSegments (A ++ '/' :: (B1 ++ '/' :: B2)) =
        specSegments A ++ [B1, B2] := by
      rw [hassoc, specSegments_append _ B2 h2, specSegments_append A B1 h1,
        List.append_assoc]
      rfl
    have hjoin : joinLastTwo (specSegments (A ++ '/' :: (B1 ++ '/' :: B2))) =
        B1 ++ '/' :: B2 := by
      rw [hsegs, joinLastTwo_append]
    rw [hjoin]
    exact abbreviate_two_case A B1 B2 h1 h2

/-- C6 witness: `a/b/c` has three segments and abbreviates to its last two
segments joined by `/`, via the third conjunct of `C6_abbreviate_amended`. -/
theorem C6_abbreviate_amended_witness :
    abbreviate (String.mk (['a'] ++ '/' :: (['b'] ++ '/' :: ['c']))) =
      some (String.mk (joinLastTwo (specSegments (['a'] ++ '/' :: (['b'] ++ '/' :: ['c']))))) :=
  C6_abbreviate_amended.2.2.1 ['a'] ['b'] ['c'] (by decide) (by decide)

/-- C10: `abbreviate` panics on the empty path (the `path[ps]` read with
`ps = 0 ≥ len`); on every non-empty path it is total and returns a suffix of
the path; and the older variant's `writeCaller` ignores the `runtime.Caller`
success flag, so a failed frame lookup feeds the empty file name to
`abbreviate` and panics. -/
theorem C10_abbreviate_panics_on_empty :
    abbreviate "" = none ∧
    (∀ p : String, p ≠ "" → ∃ r : String, abbreviate p = some r ∧ r.data <:+ p.data) ∧
    (∀ (caller : Int → Option (String × Int)) (e : Event) (n : Int),
       caller n = none → old.writeCaller caller e n = none) := by
  refine ⟨rfl, ?_, ?_⟩
  · intro p hp
    obtain ⟨l⟩ := p
    have hne : l ≠ [] := by
      intro hl
      exact hp (by rw [hl])
    by_cases hs : '/' ∈ l
    · obtain ⟨A, B, hAB, hB⟩ := exists_last_slash l hs
      subst hAB
      by_cases hA : '/' ∈ A
      · obtain ⟨A', B1, hA'eq, hB1⟩ := exists_last_slash A hA
        subst hA'eq
        have hassoc : (A' ++ '/' :: B1) ++ '/' :: B = A' ++ '/' :: (B1 ++ '/' :: B) := by
          simp
        rw [hassoc]
        refine ⟨String.mk (B1 ++ '/' :: B), abbreviate_two_case A' B1 B hB1 hB, ?_⟩
        exact ⟨A' ++ ['/'], by simp⟩
      · cases A with
        | nil =>
          rw [List.nil_append]
          exact ⟨String.mk B, abbreviate_lead_case B hB, ⟨['/'], rfl⟩⟩
        | cons a t =>
          refine ⟨String.mk (a :: t ++ '/' :: B),
            abbreviate_mid_case (a :: t) B (by simp) hA hB, ?_⟩
          exact List.suffix_refl _
    · exact ⟨String.mk l, abbreviate_no_slash_case l hne hs, List.suffix_refl l⟩
  · intro caller e n h
    rw [old.writeCaller, h]
    have habb : abbreviate "" = none := rfl
    by_cases hn : n = 3
    · rw [if_pos hn]
      simp [habb]
    · rw [if_neg hn]
      simp [habb]

/-- C10 witness: a concrete non-empty path abbreviates to a suffix of
itself, and a failing caller oracle makes the old `writeCaller` panic, via
`C10_abbreviate_panics_on_empty`. -/
theorem C10_abbreviate_panics_on_empty_witness :
    (∃ r : String, abbreviate "model/foo.go" = some r ∧
       r.data <:+ "model/foo.go".data) ∧
    old.writeCaller (fun _ => none) sampleEvent 3 = none :=
  ⟨C10_abbreviate_panics_on_empty.2.1 "model/foo.go" (by decide),
   C10_abbreviate_panics_on_empty.2.2 (fun _ => none) sampleEvent 3 rfl⟩

/-- The fields emitted for a list of (already filtered) frames, indices
starting at code point `lvl` and incrementing once per emitted frame —
exactly what the loop body of `writeCallStack` appends. -/
def stackFields (ks ke : List Char) : Nat → List (String × Int) → List Char
  | _, [] => []
  | lvl, (fn, line) :: rest =>
    fieldBlock ks ke ("@file_" ++ String.singleton (Char.ofNat lvl))
      ((abbreviate fn).getD "").data ++
    fieldBlock ks ke ("@line_" ++ String.singleton (Char.ofNat lvl)) (intDec line) ++
    stackFields ks ke (lvl + 1) rest

theorem wcsLoop_char (goroot : String) (fs : List (String × Int)) (e : Event)
    (r lvl : Nat) (walo : Bool)
    (hab : ∀ p ∈ (fs.take r).filter (fun p => passFrame e.withSystem goroot p.1),
        abbreviate p.1 ≠ none) :
    wcsLoop goroot fs e r lvl walo =
      some ({ e with txt := e.txt ++ stackFields e.keyStart e.keyEnd lvl ((fs.take r).filter (fun p => passFrame e.withSystem goroot p.1)) },
            walo || !((fs.take r).filter (fun p => passFrame e.withSystem goroot p.1)).isEmpty) := by
  induction fs generalizing e r lvl walo with
  | nil =>
    cases r with
    | zero => simp [wcsLoop, stackFields]
    | succ r' => simp [wcsLoop, stackFields]
  | cons p rest ih =>
    obtain ⟨fn, line⟩ := p
    cases r with
    | zero => simp [wcsLoop, stackFields]
    | succ r' =>
      rw [wcsLoop]
      by_cases hpass : passFrame e.withSystem goroot fn
      · have habfn : abbreviate fn ≠ none := by
          apply hab (fn, line)
          simp [List.take_succ_cons, List.filter_cons, hpass]
        obtain ⟨ab, hab2⟩ : ∃ ab, abbreviate fn = some ab := by
          cases habb : abbreviate fn with
          | none => exact absurd habb habfn
          | some ab => exact ⟨ab, rfl⟩
        rw [if_pos hpass]
        simp only [hab2]
        rw [ih ((e.strCore ("@file_" ++ String.singleton (Char.ofNat lvl)) ab).strCore
            ("@line_" ++ String.singleton (Char.ofNat lvl)) (String.mk (intDec line)))
            r' (lvl + 1) true ?hyp]
        case hyp =>
          intro q hq
          apply hab q
          simp only [strCore_eq] at hq
          simp only [List.take_succ_cons, List.filter_cons, hpass, if_pos]
          exact List.mem_cons_of_mem _ hq
        simp [strCore_eq, List.take_succ_cons, List.filter_cons, hpass, stackFields,
          hab2, List.append_assoc]
      · rw [if_neg hpass]
        rw [ih e r' lvl walo ?hyp2]
        case hyp2 =>
          intro q hq
          apply hab q
          simp only [List.take_succ_cons, List.filter_cons, hpass, Bool.false_eq_true,
            not_false_eq_true, if_neg]
          exact hq
        simp [List.take_succ_cons, List.filter_cons, hpass]

/-- C7: for a requested depth of at least one, if the frames examined are
the candidate list `frames.take maxlevels` and none of the emitted file
names would make `abbreviate` panic, then `writeCallStack` appends exactly
the fallback field `@file_0=unavailable` when every candidate frame is
filtered out (or the stack is exhausted first), and otherwise appends
`@file_N`/`@line_N` pairs whose index rune starts at '0' (code 48) and
increments once per frame actually emitted — so when nothing is emitted no
field beyond index 0 ever appears. -/
theorem C7_callstack_fallback (goroot : String) (frames : List (String × ℤ))
    (e : Event) (ml : ℤ) (hml : 1 ≤ ml)
    (hab : ∀ p ∈ (frames.take ml.toNat).filter (fun p => passFrame e.withSystem goroot p.1),
        abbreviate p.1 ≠ none) :
    Event.writeCallStack goroot frames e ml =
      some { e with txt := e.txt ++ (if (frames.take ml.toNat).filter (fun p => passFrame e.withSystem goroot p.1) = [] then fieldBlock e.keyStart e.keyEnd "@file_0" "unavailable".data else stackFields e.keyStart e.keyEnd 48 ((frames.take ml.toNat).filter (fun p => passFrame e.withSystem goroot p.1))) } := by
  have hne : ¬(ml = 0) := by omega
  rw [Event.writeCallStack, if_neg hne]
  rw [wcsLoop_char goroot frames e ml.toNat 48 false hab]
  cases hfil : (frames.take ml.toNat).filter (fun p => passFrame e.withSystem goroot p.1) with
  | nil =>
    simp [stackFields, strCore_eq]
  | cons q qs =>
    simp

/-- C7 witness: a single runtime-internal frame with system frames excluded
is filtered out entirely, so only the fallback field is appended, via
`C7_callstack_fallback`. -/
theorem C7_callstack_fallback_witness :
    (1 : ℤ) ≤ 3 ∧
    Event.writeCallStack "GOROOT" [("GOROOT/src/runtime/proc.go", 250)] sampleEvent 3 =
      some { sampleEvent with txt := sampleEvent.txt ++ (if ([("GOROOT/src/runtime/proc.go", (250 : ℤ))].take (3 : ℤ).toNat).filter (fun p => passFrame sampleEvent.withSystem "GOROOT" p.1) = [] then fieldBlock sampleEvent.keyStart sampleEvent.keyEnd "@file_0" "unavailable".data else stackFields sampleEvent.keyStart sampleEvent.keyEnd 48 (([("GOROOT/src/runtime/proc.go", (250 : ℤ))].take (3 : ℤ).toNat).filter (fun p => passFrame sampleEvent.withSystem "GOROOT" p.1))) } :=
  ⟨by decide,
   C7_callstack_fallback "GOROOT" [("GOROOT/src/runtime/proc.go", 250)] sampleEvent 3
     (by decide) (by decide)⟩

theorem wcsLoop_invariant (goroot : String) (fs : List (String × Int)) (e : Event)
    (r lvl : Nat) (walo : Bool) (e' : Event) (w' : Bool)
    (h : wcsLoop goroot fs e r lvl walo = some (e', w')) :
    e'.msgpos = e.msgpos ∧ e'.keyStart = e.keyStart ∧ e'.keyEnd = e.keyEnd ∧
    e'.withSystem = e.withSystem ∧ e'.callLevels = e.callLevels ∧ e'.out = e.out ∧
    ∃ s, e'.txt = e.txt ++ s := by
  induction fs generalizing e r lvl walo with
  | nil =>
    cases r with
    | zero =>
      rw [wcsLoop] at h
      injection h with h
      injection h with h1 h2
      subst h1
      exact ⟨rfl, rfl, rfl, rfl, rfl, rfl, [], by simp⟩
    | succ r' =>
      rw [wcsLoop] at h
      injection h with h
      injection h with h1 h2
      subst h1
      exact ⟨rfl, rfl, rfl, rfl, rfl, rfl, [], by simp⟩
  | cons p rest ih =>
    obtain ⟨fn, line⟩ := p
    cases r with
    | zero =>
      rw [wcsLoop] at h
      injection h with h
      injection h with h1 h2
      subst h1
      exact ⟨rfl, rfl, rfl, rfl, rfl, rfl, [], by simp⟩
    | succ r' =>
      rw [wcsLoop] at h
      by_cases hpass : passFrame e.withSystem goroot fn
      · rw [if_pos hpass] at h
        cases habb : abbreviate fn with
        | none =>
          rw [habb] at h
          exact absurd h (by simp)
        | some ab =>
          rw [habb] at h
          simp only [] at h
          have hinv := ih ((e.strCore ("@file_" ++ String.singleton (Char.ofNat lvl)) ab).strCore
            ("@line_" ++ String.singleton (Char.ofNat lvl)) (String.mk (intDec line)))
            r' (lvl + 1) true h
          obtain ⟨hm, hks, hke, hws, hcl, hout, s, hs⟩ := hinv
          refine ⟨?_, ?_, ?_, ?_, ?_, ?_, ?_⟩ <;>
            simp only [strCore_eq] at hm hks hke hws hcl hout hs
          · exact hm
          · exact hks
          · exact hke
          · exact hws
          · exact hcl
          · exact hout
          · exact ⟨fieldBlock e.keyStart e.keyEnd ("@file_" ++ String.singleton (Char.ofNat lvl)) ab.data ++
              fieldBlock e.keyStart e.keyEnd ("@line_" ++ String.singleton (Char.ofNat lvl)) (intDec line) ++ s,
              by rw [hs]; simp [List.append_assoc]⟩
      · rw [if_neg hpass] at h
        exact ih e r' lvl walo h

theorem writeCallStack_invariant (goroot : String) (frames : List (String × ℤ))
    (e : Event) (ml : ℤ) (e' : Event)
    (h : Event.writeCallStack goroot frames e ml = some e') :
    e'.msgpos = e.msgpos ∧ e'.keyStart = e.keyStart ∧ e'.keyEnd = e.keyEnd ∧
    e'.withSystem = e.withSystem ∧ e'.callLevels = e.callLevels ∧ e'.out = e.out ∧
    ∃ s, e'.txt = e.txt ++ s := by
  rw [Event.writeCallStack] at h
  by_cases h0 : ml = 0
  · rw [if_pos h0] at h
    injection h with h
    subst h
    exact ⟨rfl, rfl, rfl, rfl, rfl, rfl, [], by simp⟩
  · rw [if_neg h0] at h
    cases hw : wcsLoop goroot frames e ml.toNat 48 false with
    | none =>
      rw [hw] at h
      exact absurd h (by simp)
    | some pr =>
      obtain ⟨e1, w1⟩ := pr
      rw [hw] at h
      have hred : (if w1 = true then some e1
          else some (e1.strCore "@file_0" "unavailable")) = some e' := h
      obtain ⟨hm, hks, hke, hws, hcl, hout, s, hs⟩ :=
        wcsLoop_invariant goroot frames e ml.toNat 48 false e1 w1 hw
      by_cases hwb : w1 = true
      · rw [if_pos hwb] at hred
        injection hred with hred
        subst hred
        exact ⟨hm, hks, hke, hws, hcl, hout, s, hs⟩
      · rw [if_neg hwb] at hred
        injection hred with hred
        subst hred
        refine ⟨?_, ?_, ?_, ?_, ?_, ?_, ?_⟩ <;> simp only [strCore_eq]
        · exact hm
        · exact hks
        · exact hke
        · exact hws
        · exact hcl
        · exact hout
        · exact ⟨s ++ fieldBlock e1.keyStart e1.keyEnd "@file_0" "unavailable".data,
            by rw [hs]; simp [List.append_assoc]⟩

theorem applyBuilder_some_inv (goroot : String) (frames : List (String × ℤ))
    (e : Event) (c : BuilderCall) (res : Option Event)
    (h : applyBuilder goroot frames (some e) c = some res) :
    ∃ r, res = some r ∧ r.msgpos = e.msgpos ∧ ∃ s, r.txt = e.txt ++ s := by
  cases c with
  | field f =>
    rw [applyBuilder, applyFieldCall_some] at h
    injection h with h
    exact ⟨_, h.symm, rfl, renderField e.keyStart e.keyEnd f, rfl⟩
  | line =>
    rw [applyBuilder, Event.Line] at h
    cases hw : Event.writeCallStack goroot frames e 1 with
    | none =>
      rw [hw] at h
      exact absurd h (by simp)
    | some ev' =>
      rw [hw] at h
      injection h with h
      obtain ⟨hm, _, _, _, _, _, s, hs⟩ :=
        writeCallStack_invariant goroot frames e 1 ev' hw
      exact ⟨ev', h.symm, hm, s, hs⟩
  | caller =>
    rw [applyBuilder, Event.Caller] at h
    cases hw : Event.writeCallStack goroot frames e 2 with
    | none =>
      rw [hw] at h
      exact absurd h (by simp)
    | some ev' =>
      rw [hw] at h
      injection h with h
      obtain ⟨hm, _, _, _, _, _, s, hs⟩ :=
        writeCallStack_invariant goroot frames e 2 ev' hw
      exact ⟨ev', h.symm, hm, s, hs⟩
  | callStack =>
    rw [applyBuilder, Event.CallStack] at h
    cases hw : Event.writeCallStack goroot frames e e.callLevels with
    | none =>
      rw [hw] at h
      exact absurd h (by simp)
    | some ev' =>
      rw [hw] at h
      injection h with h
      obtain ⟨hm, _, _, _, _, _, s, hs⟩ :=
        writeCallStack_invariant goroot frames e e.callLevels ev' hw
      exact ⟨ev', h.symm, hm, s, hs⟩

theorem applyBuilders_some_inv (goroot : String) (frames : List (String × ℤ)) :
    ∀ (calls : List BuilderCall) (e r : Event),
      applyBuilders goroot frames (some e) calls = some (some r) →
      r.msgpos = e.msgpos ∧ ∃ s, r.txt = e.txt ++ s := by
  intro calls
  induction calls with
  | nil =>
    intro e r h
    rw [applyBuilders] at h
    injection h with h
    injection h with h
    subst h
    exact ⟨rfl, [], by simp⟩
  | cons c rest ih =>
    intro e r h
    rw [applyBuilders] at h
    cases happ : applyBuilder goroot frames (some e) c with
    | none =>
      rw [happ] at h
      exact absurd h (by simp)
    | some e1 =>
      rw [happ] at h
      obtain ⟨ev1, hev1, hm1, s1, hs1⟩ :=
        applyBuilder_some_inv goroot frames e c e1 happ
      subst hev1
      obtain ⟨hm2, s2, hs2⟩ := ih ev1 r h
      exact ⟨hm2.trans hm1, s1 ++ s2, by rw [hs2, hs1, List.append_assoc]⟩

/-- C9: the message-insertion offset recorded by `newEvent` equals the
length of the timestamp+tag prefix, and no chain of field, caller or
call-stack methods ever changes it; every such chain leaves the existing
buffer bytes (in particular everything before the offset) unchanged and
only appends at the end. -/
theorem C9_msgpos_stable (l : Logger) (ts : List Char) (w : Option String)
    (tag : List Char) (e0 : Event) (goroot : String) (frames : List (String × ℤ))
    (calls : List BuilderCall) (r : Event)
    (h0 : Logger.newEvent l ts w tag = some e0)
    (h1 : applyBuilders goroot frames (some e0) calls = some (some r)) :
    e0.msgpos = e0.txt.length ∧ r.msgpos = e0.msgpos ∧ ∃ s, r.txt = e0.txt ++ s := by
  have hpos : e0.msgpos = e0.txt.length := by
    cases w with
    | none => exact absurd h0 (by rw [Logger.newEvent]; simp)
    | some wr =>
      rw [Logger.newEvent] at h0
      injection h0 with h0
      subst h0
      rfl
  obtain ⟨hm, s, hs⟩ := applyBuilders_some_inv goroot frames calls e0 r h1
  exact ⟨hpos, hm, s, hs⟩

/-- A logger configuration used by the C9 witness: no timestamp, plain tags,
info to stdout. -/
def sampleLogger : Logger :=
  { ErrorWriter := some "stderr", InfoWriter := some "stdout", DebugWriter := none,
    Timestamp := "", UTC := false, MaxCallLevels := 3, IncludeSystemFiles := false,
    ErrorTag := "[ERROR] ".data, WarnTag := "[WARN ] ".data, InfoTag := "[INFO ] ".data,
    DebugTag := "[DEBUG] ".data, KeyStart := [], KeyEnd := [] }

/-- C9 witness: creating the sample event and appending one string field
keeps `msgpos` at the prefix length and only appends to the buffer, via
`C9_msgpos_stable`. -/
theorem C9_msgpos_stable_witness :
    Logger.newEvent sampleLogger [] (some "stdout") "[INFO ] ".data = some sampleEvent ∧
    applyBuilders "GOROOT" [] (some sampleEvent)
      [BuilderCall.field (FieldCall.str "k" "v")] =
      some (some (sampleEvent.strCore "k" "v")) ∧
    (sampleEvent.msgpos = sampleEvent.txt.length ∧
     (sampleEvent.strCore "k" "v").msgpos = sampleEvent.msgpos ∧
     ∃ s, (sampleEvent.strCore "k" "v").txt = sampleEvent.txt ++ s) :=
  ⟨by decide, by decide,
   C9_msgpos_stable sampleLogger [] (some "stdout") "[INFO ] ".data sampleEvent
     "GOROOT" [] [BuilderCall.field (FieldCall.str "k" "v")]
     (sampleEvent.strCore "k" "v") (by decide) (by decide)⟩
